import Mathlib

/-!
Verification of the midigen chord-accompaniment pipeline
(src/midigen/util.py, src/midigen/main.py, src/piano_transcription/main.py).

Times are seconds, modelled as rationals; pitches and velocities are the
integers the Python code manipulates.  The external `pretty_midi` codec and
the external `midigen` chord library are collaborators, not part of this
repository: their outcomes enter as parameters, and the chord formula is
modelled from the specification (see `KeyMode.offsets`, `triadChord`).
-/

/-- A MIDI note as exposed by the external codec: pitch, velocity, start and
end time in seconds.  `stop` models the source's `end` attribute (`end` is a
Lean keyword).  `dummy` models the `_dummy` flag that `mark_dummy_notes`
attaches dynamically (absent flag = `false`). -/
structure MNote where
  pitch : ℤ
  velocity : ℤ
  start : ℚ
  stop : ℚ
  dummy : Bool
deriving DecidableEq

/-- Duration of a note, `end - start` in the source. -/
def MNote.dur (n : MNote) : ℚ := n.stop - n.start

/-- One pretty_midi instrument: its percussion flag and its note list. -/
structure Instrument where
  is_drum : Bool
  notes : List MNote
deriving DecidableEq

/-! ### ProgressionExpander (`generate_chord_measures`, util.py 127-158) -/

/-- The seven natural key letters accepted by `note_from_string`. -/
inductive KeyLetter
  | C | D | E | F | G | A | B
deriving DecidableEq, Fintype

/-- The two modes accepted by `parse_mode`. -/
inductive KeyMode
  | Major | Minor
deriving DecidableEq, Fintype

/-- Pitch class of each natural letter (C = 0, chromatic semitone scale). -/
def KeyLetter.pc : KeyLetter → ℕ
  | .C => 0
  | .D => 2
  | .E => 4
  | .F => 5
  | .G => 7
  | .A => 9
  | .B => 11

/-- Modelled from the spec: the mode's interval pattern as cumulative semitone
offsets of the seven scale steps (Major: whole/whole/half/whole/whole/whole/half
from the root; Minor: the natural-minor pattern).  The external midigen
library (`midigen.keys.Key`, `midigen.keys.Mode`) that implements this is not
among this repository's sources. -/
def KeyMode.offsets : KeyMode → List ℕ
  | .Major => [0, 2, 4, 5, 7, 9, 11]
  | .Minor => [0, 2, 3, 5, 7, 8, 10]

/-- Modelled from the spec: the scale note at 0-based step `k`, wrapped through
the 7-note scale, reduced to a pitch class. -/
def scaleNotePc (key : KeyLetter) (mode : KeyMode) (k : ℕ) : ℕ :=
  (key.pc + (mode.offsets).getD (k % 7) 0) % 12

/-- Modelled from the spec: `Key(key, mode).relative_key(degree).chord()` of the
external midigen library — the diatonic triad on 1-based degree `d`: root at
scale step `d - 1`, third two steps further, fifth four steps further. -/
def triadChord (key : KeyLetter) (mode : KeyMode) (d : ℕ) : List ℕ :=
  [scaleNotePc key mode (d - 1), scaleNotePc key mode (d - 1 + 2),
    scaleNotePc key mode (d - 1 + 4)]

/-- One chord slot of `generate_chord_measures`: degree 0 yields the literal
rest sentinel `[0]` (source: `chord = [0]`), any other degree the library
triad. -/
def chordForDegree (key : KeyLetter) (mode : KeyMode) (d : ℤ) : List ℕ :=
  if d = 0 then [0] else triadChord key mode d.toNat

/-- util.py `generate_chord_measures`: for each of `repeats` iterations and each
degree of the progression, one measure holding `numerator` copies of the
degree's chord. -/
def generate_chord_measures (key : KeyLetter) (mode : KeyMode)
    (progression : List ℤ) (numerator : ℕ) (repeats : ℕ) :
    List (List (List ℕ)) :=
  (List.range repeats).flatMap fun _ =>
    progression.map fun d => List.replicate numerator (chordForDegree key mode d)

/-! ### DurationFixer (`adjust_chord_duration_fixed`, util.py 248-255) -/

/-- util.py `adjust_chord_duration_fixed`: every note of every non-percussion
instrument gets `end = start + beat_duration`.  The source has no dummy-note
check in this function. -/
def adjust_chord_duration_fixed (insts : List Instrument) (beat_duration : ℚ) :
    List Instrument :=
  insts.map fun inst =>
    if inst.is_drum then inst
    else { inst with notes := inst.notes.map fun n =>
      { n with stop := n.start + beat_duration } }

/-! ### Transposer (`transpose_midi`, util.py 199-210) -/

/-- util.py `transpose_midi`: skip percussion instruments, skip dummy notes,
and clamp `pitch + semitones` into `[0, 127]`
(`note.pitch = max(0, min(new_pitch, 127))`). -/
def transpose_midi (insts : List Instrument) (semitones : ℤ) : List Instrument :=
  insts.map fun inst =>
    if inst.is_drum then inst
    else { inst with notes := inst.notes.map fun n =>
      if n.dummy then n
      else { n with pitch := max 0 (min (n.pitch + semitones) 127) } }

/-! ### Repeat-count derivation (util.py 228-245, main.py 166-169) -/

/-- util.py `get_fixed_beat_duration`: fixed seconds-per-beat lookup
(0.66 is the literal `33/50`). -/
def get_fixed_beat_duration (time_sig : ℕ × ℕ) : ℚ :=
  if time_sig = (4, 4) then 1/2
  else if time_sig = (3, 4) then 33/50
  else if time_sig = (2, 4) then 1
  else 1/2

/-- main.py `combine_midi` lines 166-169: `measure_length = numerator *
beat_duration`, `total_measures_needed = ceil(duration / measure_length)`,
`repeats = ceil(total_measures_needed / len(progression))`.  Returns the pair
(total_measures_needed, repeats). -/
def derive_repeats (duration : ℚ) (time_sig : ℕ × ℕ) (progression_len : ℕ) :
    ℤ × ℤ :=
  let beat_duration := get_fixed_beat_duration time_sig
  let measure_length := (time_sig.1 : ℚ) * beat_duration
  let total_measures_needed := ⌈duration / measure_length⌉
  (total_measures_needed, ⌈(total_measures_needed : ℚ) / (progression_len : ℚ)⌉)

/-! ### SourceAnalyzer (`get_midi_key`, util.py 64-100; `get_midi_info`,
util.py 49-61; fallback in main.py 158-164) -/

/-- The circle-of-fifths dictionary of util.py `get_midi_key`, keyed by the
signed accidental count. -/
def circle_of_fifths (k : ℤ) : Option String :=
  if k = 0 then some "C"
  else if k = 1 then some "G"
  else if k = 2 then some "D"
  else if k = 3 then some "A"
  else if k = 4 then some "E"
  else if k = 5 then some "B"
  else if k = 6 then some "F#"
  else if k = 7 then some "C#"
  else if k = -1 then some "F"
  else if k = -2 then some "Bb"
  else if k = -3 then some "Eb"
  else if k = -4 then some "Ab"
  else if k = -5 then some "Db"
  else if k = -6 then some "Gb"
  else if k = -7 then some "Cb"
  else none

/-- util.py `get_midi_key`: the external pretty_midi parse either fails
(`none`) or yields the list of key-signature key numbers.  The result is the
mapped first entry (`mapping.get(ks.key_number, default_key)`), or the default
when there is no event or the parse failed. -/
def get_midi_key (parsed : Option (List ℤ)) (default_key : String) : String :=
  match parsed with
  | none => default_key
  | some [] => default_key
  | some (k :: _) => (circle_of_fifths k).getD default_key

/-- Python 3 `round` (half-to-even) as applied in util.py
`int(round(estimated_tempo))`. -/
def pyRound (q : ℚ) : ℤ :=
  let f := ⌊q⌋
  let r := q - (f : ℚ)
  if r < 1/2 then f
  else if 1/2 < r then f + 1
  else if f % 2 = 0 then f else f + 1

/-- util.py `get_midi_info`: the external parse/estimate either fails (`none`)
or yields (estimated tempo, end time); success returns the rounded tempo and
the duration, failure raises `RuntimeError` (modelled as `Except.error`). -/
def get_midi_info (parsed : Option (ℚ × ℚ)) : Except String (ℤ × ℚ) :=
  match parsed with
  | some td => Except.ok (pyRound td.1, td.2)
  | none => Except.error "RuntimeError: failed to read MIDI file"

/-- main.py `combine_midi` lines 158-164: call `get_midi_info`, catch the
error, and substitute the caller-supplied tempo and 60 seconds. -/
def resolve_tempo_duration (parsed : Option (ℚ × ℚ)) (default_tempo : ℤ) :
    ℤ × ℚ :=
  match get_midi_info parsed with
  | Except.ok td => td
  | Except.error _ => (default_tempo, 60)

/-! ### File paths (main.py 196-198, piano_transcription/main.py 42-44)

The request index below is a modelling device for distinct concurrent
invocations: the source computes each path with no per-request component at
all (`os.path.join(UPLOAD_FOLDER, 'combined_output.mid')`, and the fixed
`input.wav` / `output.mid` of the transcription service). -/

/-- main.py line 197: the output path of `combine_midi`, identical for every
invocation. -/
def midigen_output_path (_requestId : ℕ) : String :=
  "uploads" ++ "/" ++ "combined_output.mid"

/-- piano_transcription/main.py line 42: the saved upload path, identical for
every invocation. -/
def transcription_input_path (_requestId : ℕ) : String :=
  "temp" ++ "/" ++ "input.wav"

/-- piano_transcription/main.py line 43: the transcription output path,
identical for every invocation. -/
def transcription_output_path (_requestId : ℕ) : String :=
  "temp" ++ "/" ++ "output.mid"

/-! ### NoteGrouper (`connect_chord_notes_grouped`, util.py 258-282)

Python's `instrument.notes.sort(key=lambda note: note.start)` is a stable sort
by start time; `List.insertionSort` with the total preorder `noteLe` is stable
in the same sense, so it computes the same list. -/

/-- Comparison used by the sort: start time, non-strict. -/
def noteLe (a b : MNote) : Prop := a.start ≤ b.start

instance : DecidableRel noteLe := fun a b =>
  inferInstanceAs (Decidable (a.start ≤ b.start))

instance : IsTotal MNote noteLe := ⟨fun a b => le_total a.start b.start⟩

instance : IsTrans MNote noteLe := ⟨fun _ _ _ hab hbc => le_trans hab hbc⟩

/-- Stable sort by start time (`instrument.notes.sort(key=...)`). -/
def sortNotes (ns : List MNote) : List MNote := List.insertionSort noteLe ns

/-- The grouping loop of `connect_chord_notes_grouped`: `first` is the first
note of the current group (`current_group[0]`), `cur` the members collected so
far; a note joins while `abs(note.start - current_group[0].start) <= tol`. -/
def buildGroups (tol : ℚ) (first : MNote) (cur : List MNote) :
    List MNote → List (List MNote)
  | [] => [cur]
  | n :: rest =>
    if |n.start - first.start| ≤ tol then buildGroups tol first (cur ++ [n]) rest
    else cur :: buildGroups tol n [n] rest

/-- Partition a sorted note list into start-time groups
(`current_group = [instrument.notes[0]]; for note in instrument.notes[1:] ...`). -/
def groupByStart (tol : ℚ) : List MNote → List (List MNote)
  | [] => []
  | n :: rest => buildGroups tol n [n] rest

/-- Python `max(n.end for n in group)` over a non-empty group (0 for the empty
list, which never occurs). -/
def maxEnd : List MNote → ℚ
  | [] => 0
  | n :: rest => rest.foldl (fun m x => max m x.stop) n.stop

/-- Move every note of a group to start `t`, keeping its duration
(`note.start = prev_group_end; note.end = note.start + duration`). -/
def shiftGroup (t : ℚ) (g : List MNote) : List MNote :=
  g.map fun n => { n with start := t, stop := t + (n.stop - n.start) }

/-- The reconnection loop over groups 1, 2, ...: each group is moved to the
maximum end time of the previous, already-updated group
(`prev_group_end = max(n.end for n in groups[i - 1])`). -/
def connectAux (prev : List MNote) : List (List MNote) → List (List MNote)
  | [] => []
  | g :: gs =>
    let moved := shiftGroup (maxEnd prev) g
    moved :: connectAux moved gs

/-- Reconnect all groups: group 0 stays, later groups are chained. -/
def connectGroups : List (List MNote) → List (List MNote)
  | [] => []
  | g :: gs => g :: connectAux g gs

/-- util.py `connect_chord_notes_grouped` on one instrument's note list.
`none` models the `IndexError` of `instrument.notes[0]` on an empty list. -/
def connectNotes (tol : ℚ) (ns : List MNote) : Option (List MNote) :=
  if ns = [] then none
  else some (connectGroups (groupByStart tol (sortNotes ns))).flatten

/-- Default `tolerance=0.001` of `connect_chord_notes_grouped`; both call
sites use it. -/
def defaultTolerance : ℚ := 1/1000

/-- util.py `connect_chord_notes_grouped` over the whole MIDI object: drums are
skipped; a non-percussion instrument with an empty note list aborts the whole
call (the `IndexError` propagates). -/
def connect_chord_notes_grouped (tol : ℚ) :
    List Instrument → Option (List Instrument)
  | [] => some []
  | inst :: rest =>
    if inst.is_drum then
      (connect_chord_notes_grouped tol rest).map fun out => inst :: out
    else
      match connectNotes tol inst.notes with
      | none => none
      | some ns =>
        (connect_chord_notes_grouped tol rest).map fun out =>
          { inst with notes := ns } :: out

/-! ### Predicates and concrete inputs used in the statements -/

/-- Sequential chaining: every group starts exactly at the maximum end time of
its predecessor, the predecessor taken in its updated state — exactly how the
loop of `connect_chord_notes_grouped` computes `prev_group_end`. -/
def chainedFrom (prev : List MNote) : List (List MNote) → Prop
  | [] => True
  | g :: gs => (∀ n ∈ g, n.start = maxEnd prev) ∧ chainedFrom g gs

/-- All members of a group start within `tol` of the group's first note. -/
def groupTight (tol : ℚ) (g : List MNote) : Prop :=
  ∀ f ∈ g.head?, ∀ n ∈ g, |n.start - f.start| ≤ tol

/-- The first notes of two adjacent groups are more than `tol` apart — the
breaking condition of the grouping loop. -/
def startGap (tol : ℚ) (g h : List MNote) : Prop :=
  ∀ f ∈ g.head?, ∀ f2 ∈ h.head?, tol < |f2.start - f.start|

/-- A dummy (rest placeholder) note spanning a whole two-second slot. -/
def restNote : MNote :=
  { pitch := 0, velocity := 90, start := 0, stop := 2, dummy := true }

/-- A one-note chord track holding only the rest placeholder. -/
def restTrack : Instrument := { is_drum := false, notes := [restNote] }

/-- A pitched chord note. -/
def chordNote : MNote :=
  { pitch := 60, velocity := 80, start := 0, stop := 1, dummy := false }

/-- A chord track holding a rest placeholder and a pitched note. -/
def mixedTrack : Instrument := { is_drum := false, notes := [restNote, chordNote] }

/-- First note of the idempotence counterexample: an ordinary one-second note. -/
def ceNoteA : MNote :=
  { pitch := 60, velocity := 90, start := 0, stop := 1, dummy := false }

/-- Second note of the idempotence counterexample: its duration (1/2000 s) is
positive but below the 1/1000 s grouping tolerance. -/
def ceNoteB : MNote :=
  { pitch := 62, velocity := 90, start := 2, stop := 2 + 1/2000, dummy := false }

/-- Third note of the idempotence counterexample. -/
def ceNoteC : MNote :=
  { pitch := 64, velocity := 90, start := 3, stop := 7/2, dummy := false }

/-! ## Theorems -/

/-- Every diatonic triad on degrees 1-7 has length three and no duplicate pitch
classes, in every key and mode (98 concrete cases). -/
theorem triadChord_three_distinct (key : KeyLetter) (mode : KeyMode) (n : ℕ)
    (h1 : 1 ≤ n) (h7 : n ≤ 7) :
    (triadChord key mode n).length = 3 ∧ (triadChord key mode n).Nodup := by
  interval_cases n <;> revert key mode <;> decide

/-- Claim C1: for every key letter, mode and degree list,
`generate_chord_measures` maps degree 0 to the rest sentinel `[0]` and each
degree 1-7 to exactly three distinct pitch classes, the diatonic triad of that
degree in the given key and mode; every measure of its output is `numerator`
copies of the chord of some degree of the progression. -/
theorem C1_progression_expander (key : KeyLetter) (mode : KeyMode)
    (progression : List ℤ) (numerator repeats : ℕ) :
    (∀ meas ∈ generate_chord_measures key mode progression numerator repeats,
      ∃ d ∈ progression,
        meas = List.replicate numerator (chordForDegree key mode d)) ∧
    (∀ d ∈ progression,
      (d = 0 → chordForDegree key mode d = [0]) ∧
      (1 ≤ d → d ≤ 7 →
        chordForDegree key mode d = triadChord key mode d.toNat ∧
        (chordForDegree key mode d).length = 3 ∧
        (chordForDegree key mode d).Nodup)) := by
  constructor
  · intro meas hm
    simp only [generate_chord_measures, List.mem_flatMap, List.mem_range,
      List.mem_map] at hm
    obtain ⟨_, _, d, hd, rfl⟩ := hm
    exact ⟨d, hd, rfl⟩
  · intro d _
    refine ⟨fun h0 => by simp [chordForDegree, h0], fun h1 h7 => ?_⟩
    have hd0 : d ≠ 0 := by omega
    have heq : chordForDegree key mode d = triadChord key mode d.toNat := by
      simp [chordForDegree, hd0]
    have hh := triadChord_three_distinct key mode d.toNat (by omega) (by omega)
    exact ⟨heq, heq ▸ hh.1, heq ▸ hh.2⟩

/-- Witness for C1 at key C major, progression `[2, 5, 0, 1]`. -/
theorem C1_progression_expander_witness :
    (0:ℤ) ∈ ([2, 5, 0, 1] : List ℤ) ∧ (2:ℤ) ∈ ([2, 5, 0, 1] : List ℤ) ∧
    chordForDegree .C .Major 0 = [0] ∧
    chordForDegree .C .Major 2 = triadChord .C .Major 2 ∧
    (chordForDegree .C .Major 2).length = 3 ∧
    (chordForDegree .C .Major 2).Nodup := by
  have h := C1_progression_expander .C .Major [2, 5, 0, 1] 4 8
  have h0 := (h.2 0 (by decide)).1 rfl
  have h2 := (h.2 2 (by decide)).2 (by decide) (by decide)
  exact ⟨by decide, by decide, h0, h2.1, h2.2.1, h2.2.2⟩

/-- Claim C4 counterexample: the only note of `restTrack` is a placeholder, yet
`adjust_chord_duration_fixed` rewrites its end time (2 becomes 1/2), so
placeholder notes are not left unchanged. -/
theorem C4_counterexample :
    restNote.dummy = true ∧
    adjust_chord_duration_fixed [restTrack] (1/2) =
      [{ is_drum := false,
         notes := [{ pitch := 0, velocity := 90, start := 0, stop := 1/2,
                     dummy := true }] }] ∧
    adjust_chord_duration_fixed [restTrack] (1/2) ≠ [restTrack] := by
  refine ⟨rfl, ?_, ?_⟩
  · norm_num [adjust_chord_duration_fixed, restTrack, restNote]
  · norm_num [adjust_chord_duration_fixed, restTrack, restNote, MNote.mk.injEq]

/-- Claim C4 (amended): `adjust_chord_duration_fixed` sets
`end = start + beat_duration` for every note — placeholder or not — of every
non-percussion instrument, leaving starts, pitches, velocities and flags
unchanged, and leaves percussion instruments untouched. -/
theorem C4_duration_fixer (insts : List Instrument) (beat : ℚ) :
    List.Forall₂ (fun i o =>
      (i.is_drum = true → o = i) ∧
      (i.is_drum = false → o.is_drum = false ∧
        List.Forall₂ (fun n m =>
          m.pitch = n.pitch ∧ m.velocity = n.velocity ∧ m.dummy = n.dummy ∧
          m.start = n.start ∧ m.stop = n.start + beat) i.notes o.notes))
      insts (adjust_chord_duration_fixed insts beat) := by
  rw [adjust_chord_duration_fixed, List.forall₂_map_right_iff]
  refine List.forall₂_same.2 fun i _ => ?_
  cases hd : i.is_drum with
  | true => exact ⟨fun _ => by simp, fun hf => nomatch hf⟩
  | false =>
    refine ⟨fun ht => (nomatch ht), fun _ => ?_⟩
    rw [if_neg (by simp)]
    refine ⟨rfl, ?_⟩
    rw [List.forall₂_map_right_iff]
    exact List.forall₂_same.2 fun n _ => ⟨rfl, rfl, rfl, rfl, rfl⟩

/-- Witness for C4 on the concrete rest track with beat duration 1/2. -/
theorem C4_duration_fixer_witness :
    List.Forall₂ (fun (n m : MNote) =>
      m.pitch = n.pitch ∧ m.velocity = n.velocity ∧ m.dummy = n.dummy ∧
      m.start = n.start ∧ m.stop = n.start + 1/2)
      restTrack.notes
      [{ pitch := 0, velocity := 90, start := 0, stop := 1/2, dummy := true }] := by
  have h := C4_duration_fixer [restTrack] (1/2)
  have heval : adjust_chord_duration_fixed [restTrack] (1/2) =
      [{ is_drum := false,
         notes := [{ pitch := 0, velocity := 90, start := 0, stop := 1/2,
                     dummy := true }] }] := by
    norm_num [adjust_chord_duration_fixed, restTrack, restNote]
  rw [heval] at h
  exact ((List.forall₂_cons.1 h).1.2 rfl).2

/-- Claim C5: after `transpose_midi`, every non-placeholder note of a
non-percussion instrument has pitch `clamp(old + semitones, 0, 127)`, hence in
`[0, 127]`, with all other fields unchanged; placeholder notes are entirely
unchanged; percussion instruments are untouched. -/
theorem C5_transposer (insts : List Instrument) (semitones : ℤ) :
    List.Forall₂ (fun i o =>
      (i.is_drum = true → o = i) ∧
      (i.is_drum = false → o.is_drum = false ∧
        List.Forall₂ (fun n m =>
          (n.dummy = true → m = n) ∧
          (n.dummy = false →
            m.pitch = max 0 (min (n.pitch + semitones) 127) ∧
            0 ≤ m.pitch ∧ m.pitch ≤ 127 ∧
            m.velocity = n.velocity ∧ m.start = n.start ∧ m.stop = n.stop ∧
            m.dummy = n.dummy)) i.notes o.notes))
      insts (transpose_midi insts semitones) := by
  rw [transpose_midi, List.forall₂_map_right_iff]
  refine List.forall₂_same.2 fun i _ => ?_
  cases hd : i.is_drum with
  | true => exact ⟨fun _ => by simp, fun hf => (nomatch hf)⟩
  | false =>
    refine ⟨fun ht => (nomatch ht), fun _ => ?_⟩
    rw [if_neg (by simp)]
    refine ⟨rfl, ?_⟩
    rw [List.forall₂_map_right_iff]
    refine List.forall₂_same.2 fun n _ => ?_
    cases hu : n.dummy with
    | true => exact ⟨fun _ => by simp, fun hf => (nomatch hf)⟩
    | false =>
      refine ⟨fun ht => (nomatch ht), fun _ => ?_⟩
      rw [if_neg (by simp)]
      refine ⟨rfl, le_max_left 0 _, max_le (by decide) (min_le_right _ _),
        rfl, rfl, rfl, rfl⟩

/-- Witness for C5 on a track holding a rest placeholder and a pitched note,
transposed two octaves down. -/
theorem C5_transposer_witness :
    List.Forall₂ (fun (n m : MNote) =>
      (n.dummy = true → m = n) ∧
      (n.dummy = false →
        m.pitch = max 0 (min (n.pitch + -24) 127) ∧
        0 ≤ m.pitch ∧ m.pitch ≤ 127 ∧
        m.velocity = n.velocity ∧ m.start = n.start ∧ m.stop = n.stop ∧
        m.dummy = n.dummy))
      mixedTrack.notes [restNote, { chordNote with pitch := 36 }] := by
  have h := C5_transposer [mixedTrack] (-24)
  have heval : transpose_midi [mixedTrack] (-24) =
      [{ is_drum := false,
         notes := [restNote, { chordNote with pitch := 36 }] }] := by
    norm_num [transpose_midi, mixedTrack, restNote, chordNote]
  rw [heval] at h
  exact ((List.forall₂_cons.1 h).1.2 rfl).2

/-- Claim C6: the caller's derivation `repeats = ceil(ceil(duration /
(numerator * beat_duration)) / L)` makes generated coverage at least the
source duration, and the concrete 60-second 4/4 example gives 30 measures and
8 repeats. -/
theorem C6_repeats_cover (duration : ℚ) (time_sig : ℕ × ℕ) (L : ℕ)
    (_hdur : 0 < duration) (hL : 1 ≤ L) (hnum : 0 < time_sig.1) :
    duration ≤ ((derive_repeats duration time_sig L).2 : ℚ) * L * time_sig.1 *
      get_fixed_beat_duration time_sig ∧
    derive_repeats 60 (4, 4) 4 = (30, 8) := by
  constructor
  · have hbd : 0 < get_fixed_beat_duration time_sig := by
      unfold get_fixed_beat_duration
      split_ifs <;> norm_num
    have hml : 0 < (time_sig.1 : ℚ) * get_fixed_beat_duration time_sig :=
      mul_pos (by exact_mod_cast hnum) hbd
    have hL0 : (0:ℚ) < (L : ℚ) := by exact_mod_cast hL
    simp only [derive_repeats]
    set bd := get_fixed_beat_duration time_sig
    set t : ℤ := ⌈duration / ((time_sig.1 : ℚ) * bd)⌉ with ht_def
    set r : ℤ := ⌈(t : ℚ) / (L : ℚ)⌉ with hr_def
    have ht : duration / ((time_sig.1 : ℚ) * bd) ≤ (t : ℚ) := Int.le_ceil _
    have hr : (t : ℚ) / (L : ℚ) ≤ (r : ℚ) := Int.le_ceil _
    rw [div_le_iff₀ hml] at ht
    rw [div_le_iff₀ hL0] at hr
    calc duration ≤ (t : ℚ) * ((time_sig.1 : ℚ) * bd) := ht
      _ ≤ ((r : ℚ) * (L : ℚ)) * ((time_sig.1 : ℚ) * bd) := by
          apply mul_le_mul_of_nonneg_right hr hml.le
      _ = (r : ℚ) * (L : ℚ) * (time_sig.1 : ℚ) * bd := by ring
  · norm_num [derive_repeats, get_fixed_beat_duration, Int.ceil_eq_iff]

/-- Witness for C6 at 60 seconds, 4/4 time, progression length 4. -/
theorem C6_repeats_cover_witness :
    (0:ℚ) < 60 ∧ 1 ≤ 4 ∧ 0 < ((4, 4) : ℕ × ℕ).1 ∧
    (60:ℚ) ≤ (((derive_repeats 60 (4, 4) 4).2 : ℤ) : ℚ) * (4 : ℕ) *
      (((4, 4) : ℕ × ℕ).1 : ℚ) * get_fixed_beat_duration (4, 4) := by
  have h := C6_repeats_cover 60 (4, 4) 4 (by norm_num) (by norm_num) (by norm_num)
  exact ⟨by norm_num, by norm_num, by norm_num, h.1⟩

/-- Outside the accidental-count range −7..7 the circle-of-fifths dictionary
has no entry. -/
theorem circle_of_fifths_none_of_out (k : ℤ) (h : k < -7 ∨ 7 < k) :
    circle_of_fifths k = none := by
  unfold circle_of_fifths
  iterate 15 rw [if_neg (by omega)]

/-- Claim C7: `get_midi_key` is total — it returns the circle-of-fifths table
entry of the first key-signature event when present and mapped (the table
covers exactly the signed accidental counts −7..7), and the caller's default
when the parse failed, no event exists, or the key number is unmapped. -/
theorem C7_get_midi_key_total (parsed : Option (List ℤ)) (dk : String) :
    (parsed = none → get_midi_key parsed dk = dk) ∧
    (parsed = some [] → get_midi_key parsed dk = dk) ∧
    (∀ k ks, parsed = some (k :: ks) →
      get_midi_key parsed dk = (circle_of_fifths k).getD dk ∧
      ((circle_of_fifths k).isSome = true → -7 ≤ k ∧ k ≤ 7) ∧
      (circle_of_fifths k = none → get_midi_key parsed dk = dk)) := by
  refine ⟨?_, ?_, fun k ks h => ?_⟩
  · rintro rfl
    rfl
  · rintro rfl
    rfl
  subst h
  refine ⟨rfl, fun hs => ?_, fun hn => by simp [get_midi_key, hn]⟩
  by_contra hc
  rw [not_and_or] at hc
  push_neg at hc
  rw [circle_of_fifths_none_of_out k (by omega)] at hs
  simp at hs

/-- Witness for C7: a parse with first accidental count 2 maps to D, and an
unmapped count 10 falls back to the default. -/
theorem C7_get_midi_key_total_witness :
    get_midi_key (some [2, 0]) "C" = "D" ∧ get_midi_key (some [10]) "C" = "C" := by
  have h1 := (C7_get_midi_key_total (some [2, 0]) "C").2.2 2 [0] rfl
  have h2 := (C7_get_midi_key_total (some [10]) "C").2.2 10 [] rfl
  exact ⟨h1.1.trans rfl, h2.2.2 rfl⟩

/-- Claim C8: `get_midi_info` fails exactly when the external parse/estimate
fails, and the caller of main.py substitutes (caller tempo, 60 s) on failure
and uses (rounded bpm, end time) on success. -/
theorem C8_tempo_fallback (parsed : Option (ℚ × ℚ)) (default_tempo : ℤ) :
    ((∃ msg, get_midi_info parsed = Except.error msg) ↔ parsed = none) ∧
    (∀ t d, parsed = some (t, d) →
      get_midi_info parsed = Except.ok (pyRound t, d) ∧
      resolve_tempo_duration parsed default_tempo = (pyRound t, d)) ∧
    (parsed = none →
      resolve_tempo_duration parsed default_tempo = (default_tempo, 60)) := by
  refine ⟨⟨?_, ?_⟩, fun t d h => by subst h; exact ⟨rfl, rfl⟩,
    fun h => by subst h; rfl⟩
  · rintro ⟨msg, hmsg⟩
    cases parsed with
    | none => rfl
    | some td => exact (nomatch hmsg)
  · rintro rfl
    exact ⟨_, rfl⟩

/-- Witness for C8: an estimated tempo of 120.3 bpm with a 95-second file
rounds to 120; a failed parse with caller tempo 90 yields (90, 60). -/
theorem C8_tempo_fallback_witness :
    resolve_tempo_duration (some (1203/10, 95)) 90 = (120, 95) ∧
    resolve_tempo_duration none 90 = (90, 60) := by
  have h1 := (C8_tempo_fallback (some (1203/10, 95)) 90).2.1 (1203/10) 95 rfl
  have h2 := (C8_tempo_fallback none 90).2.2 rfl
  have hfloor : ⌊(1203:ℚ)/10⌋ = 120 := by
    rw [Int.floor_eq_iff]
    norm_num
  have hround : pyRound (1203/10) = 120 := by
    rw [pyRound, hfloor]
    norm_num
  rw [h1.2, hround]
  exact ⟨rfl, h2⟩

/-- Claim C9 (code bug): the intermediate and output paths contain no
per-invocation identifier — every invocation, `r1` or `r2`, computes the same
fixed path, so concurrent requests share `uploads/combined_output.mid` and the
transcription service's `temp/input.wav` and `temp/output.mid`. -/
theorem C9_fixed_paths (r1 r2 : ℕ) :
    midigen_output_path r1 = midigen_output_path r2 ∧
    transcription_input_path r1 = transcription_input_path r2 ∧
    transcription_output_path r1 = transcription_output_path r2 :=
  ⟨rfl, rfl, rfl⟩

/-- Claim C10: `connect_chord_notes_grouped` requires every non-percussion
instrument to hold at least one note — on an empty note list it fails (the
`IndexError` of `instrument.notes[0]`), and under the precondition it always
returns. -/
theorem C10_empty_notes_precondition (insts : List Instrument) :
    connect_chord_notes_grouped defaultTolerance
      [{ is_drum := false, notes := [] }] = none ∧
    ((∀ i ∈ insts, i.is_drum = false → i.notes ≠ []) →
      (connect_chord_notes_grouped defaultTolerance insts).isSome = true) := by
  constructor
  · rfl
  · induction insts with
    | nil => intro _; rfl
    | cons i rest ih =>
      intro h
      have hrest := ih fun j hj => h j (List.mem_cons_of_mem _ hj)
      obtain ⟨out, hout⟩ := Option.isSome_iff_exists.1 hrest
      unfold connect_chord_notes_grouped
      cases hd : i.is_drum with
      | true => rw [if_pos rfl, hout]; rfl
      | false =>
        rw [if_neg Bool.false_ne_true]
        have hnn : i.notes ≠ [] := h i (List.mem_cons_self i rest) hd
        rw [connectNotes, if_neg hnn, hout]
        rfl

/-- Witness for C10 on a one-note non-percussion instrument. -/
theorem C10_empty_notes_precondition_witness :
    (connect_chord_notes_grouped defaultTolerance
      [{ is_drum := false, notes := [chordNote] }]).isSome = true := by
  refine (C10_empty_notes_precondition
    [{ is_drum := false, notes := [chordNote] }]).2 ?_
  intro i hi _
  rw [List.mem_singleton] at hi
  subst hi
  simp

/-! ### Structure of the grouping pass -/

/-- Flattening the groups gives back the grouped list. -/
theorem buildGroups_flatten (tol : ℚ) (rest : List MNote) :
    ∀ (first : MNote) (cur : List MNote),
      (buildGroups tol first cur rest).flatten = cur ++ rest := by
  induction rest with
  | nil => intro f cur; simp [buildGroups]
  | cons n rest ih =>
    intro f cur
    rw [buildGroups]
    split_ifs with h
    · rw [ih f (cur ++ [n])]; simp
    · rw [List.flatten_cons, ih n [n]]; simp

/-- Grouping partitions the list: the concatenation of the groups is the
input. -/
theorem groupByStart_flatten (tol : ℚ) (ns : List MNote) :
    (groupByStart tol ns).flatten = ns := by
  cases ns with
  | nil => rfl
  | cons n rest => rw [groupByStart, buildGroups_flatten]; rfl

/-- Every group produced by the grouping loop is non-empty. -/
theorem buildGroups_ne_nil (tol : ℚ) (rest : List MNote) :
    ∀ (first : MNote) (cur : List MNote), cur ≠ [] →
      ∀ g ∈ buildGroups tol first cur rest, g ≠ [] := by
  induction rest with
  | nil =>
    intro f cur hcur g hg
    rw [buildGroups, List.mem_singleton] at hg
    exact hg ▸ hcur
  | cons n rest ih =>
    intro f cur hcur g hg
    rw [buildGroups] at hg
    split_ifs at hg with h
    · exact ih f (cur ++ [n]) (by simp) g hg
    · rcases List.mem_cons.1 hg with rfl | hg
      · exact hcur
      · exact ih n [n] (by simp) g hg

/-- Every group of `groupByStart` is non-empty. -/
theorem groupByStart_ne_nil (tol : ℚ) (ns : List MNote) :
    ∀ g ∈ groupByStart tol ns, g ≠ [] := by
  cases ns with
  | nil => intro g hg; cases hg
  | cons n rest => exact buildGroups_ne_nil tol rest n [n] (by simp)

/-- The first group of the grouping loop extends the accumulator. -/
theorem buildGroups_head (tol : ℚ) (rest : List MNote) :
    ∀ (first : MNote) (cur : List MNote),
      ∃ t, (buildGroups tol first cur rest).head? = some (cur ++ t) := by
  induction rest with
  | nil => intro f cur; exact ⟨[], by simp [buildGroups]⟩
  | cons n rest ih =>
    intro f cur
    rw [buildGroups]
    split_ifs with h
    · obtain ⟨t, ht⟩ := ih f (cur ++ [n])
      exact ⟨[n] ++ t, by rw [ht]; simp⟩
    · exact ⟨[], by simp⟩

/-- All members of every group lie within `tol` of the group's first note. -/
theorem buildGroups_tight (tol : ℚ) (htol : 0 ≤ tol) (rest : List MNote) :
    ∀ (first : MNote) (cur : List MNote), cur.head? = some first →
      (∀ x ∈ cur, |x.start - first.start| ≤ tol) →
      ∀ g ∈ buildGroups tol first cur rest, groupTight tol g := by
  induction rest with
  | nil =>
    intro f cur hhead hcur g hg
    rw [buildGroups, List.mem_singleton] at hg
    subst hg
    intro f2 hf2 n hn
    rw [hhead, Option.mem_some_iff] at hf2
    exact hf2 ▸ hcur n hn
  | cons n rest ih =>
    intro f cur hhead hcur g hg
    rw [buildGroups] at hg
    split_ifs at hg with h
    · refine ih f (cur ++ [n]) ?_ ?_ g hg
      · cases cur with
        | nil => cases hhead
        | cons c cs => simpa using hhead
      · intro x hx
        rcases List.mem_append.1 hx with hx | hx
        · exact hcur x hx
        · rw [List.mem_singleton] at hx
          exact hx ▸ h
    · rcases List.mem_cons.1 hg with rfl | hg
      · intro f2 hf2 m hm
        rw [hhead, Option.mem_some_iff] at hf2
        exact hf2 ▸ hcur m hm
      · refine ih n [n] rfl ?_ g hg
        intro x hx
        rw [List.mem_singleton] at hx
        subst hx
        simpa using htol

/-- All members of every `groupByStart` group lie within `tol` of the group's
first note. -/
theorem groupByStart_tight (tol : ℚ) (htol : 0 ≤ tol) (ns : List MNote) :
    ∀ g ∈ groupByStart tol ns, groupTight tol g := by
  cases ns with
  | nil => intro g hg; cases hg
  | cons n rest =>
    refine buildGroups_tight tol htol rest n [n] rfl ?_
    intro x hx
    rw [List.mem_singleton] at hx
    subst hx
    simpa using htol

/-- Adjacent groups of the grouping loop start more than `tol` apart. -/
theorem buildGroups_chain (tol : ℚ) (rest : List MNote) :
    ∀ (first : MNote) (cur : List MNote), cur.head? = some first →
      List.Chain' (startGap tol) (buildGroups tol first cur rest) := by
  induction rest with
  | nil => intro f cur _; simp [buildGroups]
  | cons n rest ih =>
    intro f cur hhead
    rw [buildGroups]
    split_ifs with h
    · refine ih f (cur ++ [n]) ?_
      cases cur with
      | nil => cases hhead
      | cons c cs => simpa using hhead
    · rw [List.chain'_cons']
      refine ⟨?_, ih n [n] rfl⟩
      intro g1 hg1
      obtain ⟨t, ht⟩ := buildGroups_head tol rest n [n]
      rw [ht, Option.mem_some_iff] at hg1
      subst hg1
      intro f1 hf1 f2 hf2
      rw [hhead, Option.mem_some_iff] at hf1
      subst hf1
      simp only [List.cons_append, List.nil_append, List.head?_cons,
        Option.mem_some_iff] at hf2
      subst hf2
      exact not_le.1 h

/-! ### Bounds on `maxEnd` and the reconnection pass -/

/-- A lower bound on the accumulator is a lower bound on the `maxEnd` fold. -/
theorem foldl_maxEnd_le (xs : List MNote) :
    ∀ {a b : ℚ}, a ≤ b → a ≤ xs.foldl (fun m x => max m x.stop) b := by
  induction xs with
  | nil => exact fun h => h
  | cons x xs ih =>
    intro a b h
    rw [List.foldl_cons]
    exact ih (h.trans (le_max_left b x.stop))

/-- The `maxEnd` fold is monotone in its accumulator. -/
theorem foldl_maxEnd_mono (xs : List MNote) :
    ∀ {a b : ℚ}, a ≤ b →
      xs.foldl (fun m x => max m x.stop) a ≤
        xs.foldl (fun m x => max m x.stop) b := by
  induction xs with
  | nil => exact fun h => h
  | cons x xs ih =>
    intro a b h
    rw [List.foldl_cons, List.foldl_cons]
    exact ih (max_le_max h (le_refl x.stop))

/-- Every member's end time is at most the group's `maxEnd`. -/
theorem le_maxEnd : ∀ (g : List MNote) (n : MNote), n ∈ g →
    n.stop ≤ maxEnd g := by
  intro g
  induction g with
  | nil => exact fun n hn => absurd hn (List.not_mem_nil n)
  | cons m rest ih =>
    intro n hn
    rw [maxEnd]
    rcases List.mem_cons.1 hn with rfl | hn
    · exact foldl_maxEnd_le rest (le_refl n.stop)
    · cases rest with
      | nil => exact absurd hn (List.not_mem_nil n)
      | cons r rs =>
        have h1 := ih n hn
        rw [maxEnd] at h1
        rw [List.foldl_cons]
        exact h1.trans (foldl_maxEnd_mono rs (le_max_right m.stop r.stop))

/-- Every note of a shifted group starts at the shift target. -/
theorem shiftGroup_start (t : ℚ) (g : List MNote) :
    ∀ n ∈ shiftGroup t g, n.start = t := by
  intro n hn
  obtain ⟨m, _, rfl⟩ := List.mem_map.1 hn
  rfl

/-- Every note of a shifted group descends from a group member with the same
pitch, velocity, flag and duration. -/
theorem shiftGroup_mem (t : ℚ) (g : List MNote) :
    ∀ m ∈ shiftGroup t g, ∃ n ∈ g, m.pitch = n.pitch ∧
      m.velocity = n.velocity ∧ m.dummy = n.dummy ∧
      m.stop - m.start = n.stop - n.start := by
  intro m hm
  obtain ⟨n, hn, rfl⟩ := List.mem_map.1 hm
  exact ⟨n, hn, rfl, rfl, rfl, by ring⟩

/-- Shifting preserves the group pointwise up to start time: same pitch,
velocity, flag and duration. -/
theorem shiftGroup_forall₂ (t : ℚ) (g : List MNote) :
    List.Forall₂ (fun a b => b.pitch = a.pitch ∧ b.velocity = a.velocity ∧
      b.dummy = a.dummy ∧ b.stop - b.start = a.stop - a.start)
      g (shiftGroup t g) := by
  rw [shiftGroup, List.forall₂_map_right_iff]
  exact List.forall₂_same.2 fun n _ => ⟨rfl, rfl, rfl, by ring⟩

/-- Shifting a group to the start it already has is the identity. -/
theorem shiftGroup_eq_of_const (t : ℚ) (g : List MNote)
    (h : ∀ n ∈ g, n.start = t) : shiftGroup t g = g := by
  induction g with
  | nil => rfl
  | cons n rest ih =>
    rw [shiftGroup, List.map_cons]
    have hn := h n (List.mem_cons_self n rest)
    have hrest : (shiftGroup t rest) = rest :=
      ih fun m hm => h m (List.mem_cons_of_mem n hm)
    rw [shiftGroup] at hrest
    rw [hrest]
    congr 1
    cases n with
    | mk p v s e d =>
      simp only [MNote.mk.injEq] at hn ⊢
      subst hn
      refine ⟨trivial, trivial, rfl, by ring, trivial⟩

/-- A shifted group is empty exactly when the original is. -/
theorem shiftGroup_ne_nil (t : ℚ) (g : List MNote) (h : g ≠ []) :
    shiftGroup t g ≠ [] := by
  cases g with
  | nil => exact absurd rfl h
  | cons n rest => simp [shiftGroup]

/-- The reconnection pass chains every group to its updated predecessor. -/
theorem chainedFrom_connectAux (gs : List (List MNote)) :
    ∀ prev, chainedFrom prev (connectAux prev gs) := by
  induction gs with
  | nil => intro prev; trivial
  | cons g gs ih =>
    intro prev
    rw [connectAux, chainedFrom]
    exact ⟨shiftGroup_start (maxEnd prev) g, ih _⟩

/-- On a chained group list the reconnection pass is the identity. -/
theorem connectAux_eq_of_chained (gs : List (List MNote)) :
    ∀ prev, chainedFrom prev gs → connectAux prev gs = gs := by
  induction gs with
  | nil => intro _ _; rfl
  | cons g gs ih =>
    intro prev h
    rw [chainedFrom] at h
    rw [connectAux]
    have hg : shiftGroup (maxEnd prev) g = g := shiftGroup_eq_of_const _ _ h.1
    rw [hg, ih g h.2]

/-- Every group of the reconnection pass's output is non-empty when every
input group is. -/
theorem connectAux_ne_nil (gs : List (List MNote)) :
    ∀ prev, (∀ g ∈ gs, g ≠ []) →
      ∀ g' ∈ connectAux prev gs, g' ≠ [] := by
  induction gs with
  | nil => intro _ _ g' hg'; cases hg'
  | cons g gs ih =>
    intro prev hne g' hg'
    rw [connectAux] at hg'
    rcases List.mem_cons.1 hg' with rfl | hg'
    · exact shiftGroup_ne_nil _ _ (hne g (List.mem_cons_self g gs))
    · exact ih _ (fun j hj => hne j (List.mem_cons_of_mem g hj)) g' hg'

/-- Every note of the reconnection pass's output has the duration of a note of
some input group. -/
theorem connectAux_dur_mem (gs : List (List MNote)) :
    ∀ prev, ∀ g' ∈ connectAux prev gs, ∀ m ∈ g',
      ∃ g ∈ gs, ∃ n ∈ g, m.stop - m.start = n.stop - n.start := by
  induction gs with
  | nil => intro _ g' hg'; cases hg'
  | cons g gs ih =>
    intro prev g' hg' m hm
    rw [connectAux] at hg'
    rcases List.mem_cons.1 hg' with rfl | hg'
    · obtain ⟨n, hn, _, _, _, hd⟩ := shiftGroup_mem _ _ m hm
      exact ⟨g, List.mem_cons_self g gs, n, hn, hd⟩
    · obtain ⟨g2, hg2, n, hn, hd⟩ := ih _ g' hg' m hm
      exact ⟨g2, List.mem_cons_of_mem g hg2, n, hn, hd⟩

/-! ### Ordering facts about the reconnection pass -/

/-- With non-negative durations, every note the reconnection pass emits starts
no earlier than the previous group's maximum end. -/
theorem connectAux_start_ge (gs : List (List MNote)) :
    ∀ prev, (∀ g ∈ gs, g ≠ []) →
      (∀ g ∈ gs, ∀ n ∈ g, 0 ≤ n.stop - n.start) →
      ∀ g' ∈ connectAux prev gs, ∀ m ∈ g', maxEnd prev ≤ m.start := by
  induction gs with
  | nil => intro _ _ _ g' hg'; cases hg'
  | cons g gs ih =>
    intro prev hne hd0 g' hg' m hm
    rw [connectAux] at hg'
    rcases List.mem_cons.1 hg' with rfl | hg'
    · rw [shiftGroup_start _ _ m hm]
    · have hmv : maxEnd prev ≤ maxEnd (shiftGroup (maxEnd prev) g) := by
        obtain ⟨m0, hm0⟩ := List.exists_mem_of_ne_nil _
          (shiftGroup_ne_nil (maxEnd prev) g (hne g (List.mem_cons_self g gs)))
        have hs0 := shiftGroup_start _ _ m0 hm0
        obtain ⟨n0, hn0, _, _, _, hd⟩ := shiftGroup_mem _ _ m0 hm0
        have hd' := hd0 g (List.mem_cons_self g gs) n0 hn0
        have hle := le_maxEnd _ _ hm0
        linarith
      exact le_trans hmv
        (ih _ (fun j hj => hne j (List.mem_cons_of_mem g hj))
          (fun j hj => hd0 j (List.mem_cons_of_mem g hj)) g' hg' m hm)

/-- With non-negative durations, the reconnection pass emits groups whose
start times never interleave backwards. -/
theorem connectAux_pairwise_cross (gs : List (List MNote)) :
    ∀ prev, (∀ g ∈ gs, g ≠ []) →
      (∀ g ∈ gs, ∀ n ∈ g, 0 ≤ n.stop - n.start) →
      List.Pairwise (fun g h => ∀ a ∈ g, ∀ b ∈ h, a.start ≤ b.start)
        (connectAux prev gs) := by
  induction gs with
  | nil => intro _ _ _; rw [connectAux]; exact List.Pairwise.nil
  | cons g gs ih =>
    intro prev hne hd0
    rw [connectAux]
    refine List.pairwise_cons.2 ⟨?_,
      ih _ (fun j hj => hne j (List.mem_cons_of_mem g hj))
        (fun j hj => hd0 j (List.mem_cons_of_mem g hj))⟩
    intro h' hh' a ha b hb
    have hdur_a : 0 ≤ a.stop - a.start := by
      obtain ⟨n, hn, _, _, _, hd⟩ := shiftGroup_mem _ _ a ha
      rw [hd]
      exact hd0 g (List.mem_cons_self g gs) n hn
    have h1 : a.start ≤ maxEnd (shiftGroup (maxEnd prev) g) :=
      le_trans (by linarith) (le_maxEnd _ a ha)
    have h2 := connectAux_start_ge gs (shiftGroup (maxEnd prev) g)
      (fun j hj => hne j (List.mem_cons_of_mem g hj))
      (fun j hj => hd0 j (List.mem_cons_of_mem g hj)) h' hh' b hb
    exact le_trans h1 h2

/-- A group whose notes all share one start time is (weakly) sorted. -/
theorem pairwise_le_of_const_start (g : List MNote) (t : ℚ)
    (h : ∀ n ∈ g, n.start = t) :
    List.Pairwise (fun a b => a.start ≤ b.start) g := by
  induction g with
  | nil => exact List.Pairwise.nil
  | cons n rest ih =>
    refine List.pairwise_cons.2 ⟨fun b hb => ?_,
      ih fun m hm => h m (List.mem_cons_of_mem n hm)⟩
    rw [h n (List.mem_cons_self n rest), h b (List.mem_cons_of_mem n hb)]

/-- A group whose notes all share one start time is tight for any
non-negative tolerance. -/
theorem groupTight_of_const (tol : ℚ) (htol : 0 ≤ tol) (g : List MNote)
    (t : ℚ) (h : ∀ n ∈ g, n.start = t) : groupTight tol g := by
  intro f hf n hn
  rw [h n hn, h f (List.mem_of_mem_head? hf)]
  simpa using htol

/-- With durations above the tolerance, consecutive output groups of the
reconnection pass start more than the tolerance apart. -/
theorem connectAux_gap_chain (tol : ℚ) (htol : 0 ≤ tol)
    (gs : List (List MNote)) :
    ∀ prev, (∀ g ∈ gs, g ≠ []) →
      (∀ g ∈ gs, ∀ n ∈ g, tol < n.stop - n.start) →
      List.Chain' (startGap tol) (connectAux prev gs) := by
  induction gs with
  | nil => intro _ _ _; rw [connectAux]; exact List.chain'_nil
  | cons g gs ih =>
    intro prev hne hdur
    rw [connectAux, List.chain'_cons']
    have hne' := fun j hj => hne j (List.mem_cons_of_mem g hj)
    have hdur' := fun j hj => hdur j (List.mem_cons_of_mem g hj)
    refine ⟨?_, ih _ hne' hdur'⟩
    intro h' hh' f1 hf1 f2 hf2
    have hh'mem := List.mem_of_mem_head? hh'
    have hf1s : f1.start = maxEnd prev :=
      shiftGroup_start _ _ f1 (List.mem_of_mem_head? hf1)
    have hf2m := List.mem_of_mem_head? hf2
    have hge := connectAux_start_ge gs (shiftGroup (maxEnd prev) g) hne'
      (fun j hj n hn => le_of_lt (lt_of_le_of_lt htol (hdur' j hj n hn)))
      h' hh'mem f2 hf2m
    have hstep : maxEnd prev + tol < maxEnd (shiftGroup (maxEnd prev) g) := by
      obtain ⟨m0, hm0⟩ := List.exists_mem_of_ne_nil _
        (shiftGroup_ne_nil (maxEnd prev) g (hne g (List.mem_cons_self g gs)))
      have hs0 := shiftGroup_start _ _ m0 hm0
      obtain ⟨n0, hn0, _, _, _, hd⟩ := shiftGroup_mem _ _ m0 hm0
      have hd' := hdur g (List.mem_cons_self g gs) n0 hn0
      have hle := le_maxEnd _ _ hm0
      linarith
    have hlt : tol < f2.start - f1.start := by
      rw [hf1s]
      linarith
    exact lt_of_lt_of_le hlt (le_abs_self _)

/-- Reading `chainedFrom` positionally: each group at index `i + 1` of the
extended list starts at the maximum end of the group at index `i`. -/
theorem chainedFrom_get (gs : List (List MNote)) :
    ∀ prev, chainedFrom prev gs →
      ∀ (i : ℕ) (hi : i + 1 < (prev :: gs).length),
        ∀ n ∈ (prev :: gs)[i + 1], n.start = maxEnd ((prev :: gs)[i]) := by
  induction gs with
  | nil =>
    intro prev _ i hi
    simp at hi
  | cons g gs ih =>
    intro prev hch i hi
    rw [chainedFrom] at hch
    cases i with
    | zero =>
      intro n hn
      simp only [List.getElem_cons_succ, List.getElem_cons_zero] at hn ⊢
      exact hch.1 n hn
    | succ j =>
      intro n hn
      simp only [List.getElem_cons_succ] at hn ⊢
      exact ih g hch.2 j (by simpa using Nat.lt_of_succ_lt_succ hi) n hn

/-- The reconnection pass preserves each group pointwise up to start times:
same pitch, velocity, flag and duration. -/
theorem connectAux_forall₂ (gs : List (List MNote)) :
    ∀ prev, List.Forall₂ (List.Forall₂ (fun a b => b.pitch = a.pitch ∧
      b.velocity = a.velocity ∧ b.dummy = a.dummy ∧
      b.stop - b.start = a.stop - a.start)) gs (connectAux prev gs) := by
  induction gs with
  | nil => intro _; exact List.Forall₂.nil
  | cons g gs ih =>
    intro prev
    rw [connectAux]
    exact List.Forall₂.cons (shiftGroup_forall₂ _ g) (ih _)

/-- `connectGroups` preserves each group pointwise up to start times. -/
theorem connectGroups_forall₂ (gs : List (List MNote)) :
    List.Forall₂ (List.Forall₂ (fun a b => b.pitch = a.pitch ∧
      b.velocity = a.velocity ∧ b.dummy = a.dummy ∧
      b.stop - b.start = a.stop - a.start)) gs (connectGroups gs) := by
  cases gs with
  | nil => exact List.Forall₂.nil
  | cons g gs =>
    rw [connectGroups]
    exact List.Forall₂.cons
      (List.forall₂_same.2 fun a _ => ⟨rfl, rfl, rfl, rfl⟩)
      (connectAux_forall₂ gs g)

/-! ### Regrouping a block list reproduces its blocks -/

/-- The grouping loop consumes a within-tolerance block and then restarts on
the remainder whose first note is out of tolerance. -/
theorem buildGroups_block (tol : ℚ) (gtail : List MNote) :
    ∀ (f : MNote) (cur rest : List MNote),
      (∀ n ∈ gtail, |n.start - f.start| ≤ tol) →
      (∀ m ∈ rest.head?, tol < |m.start - f.start|) →
      buildGroups tol f cur (gtail ++ rest) =
        (cur ++ gtail) :: groupByStart tol rest := by
  induction gtail with
  | nil =>
    intro f cur rest _ h2
    cases rest with
    | nil => simp [buildGroups, groupByStart]
    | cons m rest' =>
      rw [List.nil_append, buildGroups, if_neg (not_le.2 (h2 m rfl))]
      simp [groupByStart]
  | cons x gtail ih =>
    intro f cur rest h1 h2
    rw [List.cons_append, buildGroups,
      if_pos (h1 x (List.mem_cons_self x gtail)),
      ih f (cur ++ [x]) rest (fun n hn => h1 n (List.mem_cons_of_mem x hn)) h2]
    simp

/-- Regrouping the concatenation of non-empty, tight, tolerance-separated
blocks yields exactly those blocks. -/
theorem groupByStart_eq_blocks (tol : ℚ) (gs : List (List MNote))
    (hne : ∀ g ∈ gs, g ≠ []) (htight : ∀ g ∈ gs, groupTight tol g)
    (hchain : List.Chain' (startGap tol) gs) :
    groupByStart tol gs.flatten = gs := by
  induction gs with
  | nil => rfl
  | cons g gs ih =>
    obtain ⟨f, gtail, rfl⟩ : ∃ f t, g = f :: t := by
      cases g with
      | nil => exact absurd rfl (hne _ (List.mem_cons_self _ gs))
      | cons a b => exact ⟨a, b, rfl⟩
    rw [List.flatten_cons, List.cons_append, groupByStart,
      buildGroups_block tol gtail f [f] gs.flatten
        (fun n hn => htight _ (List.mem_cons_self _ gs) f rfl n
          (List.mem_cons_of_mem f hn))
        ?_]
    · rw [ih (fun j hj => hne j (List.mem_cons_of_mem _ hj))
        (fun j hj => htight j (List.mem_cons_of_mem _ hj))
        (List.chain'_cons'.1 hchain).2]
      simp
    · intro m hm
      cases gs with
      | nil => cases hm
      | cons h hs =>
        obtain ⟨f2, t2, rfl⟩ : ∃ a b, h = a :: b := by
          cases h with
          | nil =>
            exact absurd rfl (hne _ (List.mem_cons_of_mem _
              (List.mem_cons_self _ hs)))
          | cons a b => exact ⟨a, b, rfl⟩
        simp only [List.flatten_cons, List.cons_append, List.head?_cons,
          Option.mem_some_iff] at hm
        subst hm
        exact (List.chain'_cons'.1 hchain).1 (f2 :: t2) rfl f rfl f2 rfl

/-- Adjacent `groupByStart` groups start more than `tol` apart. -/
theorem groupByStart_chain (tol : ℚ) (ns : List MNote) :
    List.Chain' (startGap tol) (groupByStart tol ns) := by
  cases ns with
  | nil => exact List.chain'_nil
  | cons n rest => exact buildGroups_chain tol rest n [n] rfl

/-- The reconnection pass keeps the first group in place. -/
theorem connectGroups_head (gs : List (List MNote)) :
    (connectGroups gs).head? = gs.head? := by
  cases gs <;> rfl

/-- Positional reading of the reconnection chain on `connectGroups`: each group
at index `i ≥ 1` starts at the maximum end of the updated group at `i − 1`. -/
theorem connectGroups_chained_get (gs : List (List MNote)) (i : ℕ)
    (h1 : 1 ≤ i) (hi : i < (connectGroups gs).length) :
    ∀ n ∈ (connectGroups gs)[i], n.start = maxEnd ((connectGroups gs)[i - 1]) := by
  cases gs with
  | nil => exact absurd hi (by simp [connectGroups])
  | cons g rest =>
    cases i with
    | zero => omega
    | succ j =>
      intro n hn
      have hch := chainedFrom_connectAux rest g
      have hlen : j + 1 < (g :: connectAux g rest).length := hi
      have hg := chainedFrom_get (connectAux g rest) g hch j hlen n hn
      simpa using hg

/-- Claim C2: on a non-empty note list, `connect_chord_notes_grouped` sorts by
start time, partitions into start-time groups within the 1 ms tolerance
(groups are non-empty and tight, and adjacent groups break farther than the
tolerance), leaves group 0 in place, moves every group `i ≥ 1` so that all its
notes start at the maximum end time over the updated group `i − 1`, and
preserves each note's pitch, velocity, flag and duration. -/
theorem C2_note_grouper (ns : List MNote) (hne : ns ≠ []) :
    connectNotes defaultTolerance ns =
      some (connectGroups (groupByStart defaultTolerance (sortNotes ns))).flatten ∧
    (groupByStart defaultTolerance (sortNotes ns)).flatten = sortNotes ns ∧
    (∀ g ∈ groupByStart defaultTolerance (sortNotes ns),
      g ≠ [] ∧ groupTight defaultTolerance g) ∧
    List.Chain' (startGap defaultTolerance)
      (groupByStart defaultTolerance (sortNotes ns)) ∧
    (connectGroups (groupByStart defaultTolerance (sortNotes ns))).head? =
      (groupByStart defaultTolerance (sortNotes ns)).head? ∧
    List.Forall₂ (List.Forall₂ (fun a b => b.pitch = a.pitch ∧
      b.velocity = a.velocity ∧ b.dummy = a.dummy ∧
      b.stop - b.start = a.stop - a.start))
      (groupByStart defaultTolerance (sortNotes ns))
      (connectGroups (groupByStart defaultTolerance (sortNotes ns))) ∧
    (∀ (i : ℕ), 1 ≤ i →
      ∀ (hi : i <
        (connectGroups (groupByStart defaultTolerance (sortNotes ns))).length),
      ∀ n ∈ (connectGroups (groupByStart defaultTolerance (sortNotes ns)))[i],
        n.start = maxEnd
          ((connectGroups (groupByStart defaultTolerance (sortNotes ns)))[i - 1])) := by
  refine ⟨by rw [connectNotes, if_neg hne], groupByStart_flatten _ _,
    fun g hg => ⟨groupByStart_ne_nil _ _ g hg,
      groupByStart_tight _ (by norm_num [defaultTolerance]) _ g hg⟩,
    groupByStart_chain _ _, connectGroups_head _, connectGroups_forall₂ _,
    fun i h1 hi => connectGroups_chained_get _ i h1 hi⟩

/-- Witness for C2: two one-second notes given in reverse order; the second
group is moved to start at the first note's end. -/
theorem C2_note_grouper_witness :
    connectNotes defaultTolerance [ceNoteB, ceNoteA] =
      some [ceNoteA,
        { pitch := 62, velocity := 90, start := 1, stop := 1 + 1/2000,
          dummy := false }] := by
  have h := (C2_note_grouper [ceNoteB, ceNoteA] (by simp)).1
  rw [h]
  norm_num [sortNotes, List.insertionSort, List.orderedInsert, noteLe,
    groupByStart, buildGroups, maxEnd, connectGroups, connectAux, shiftGroup,
    defaultTolerance, ceNoteA, ceNoteB]

/-- Every output group of the reconnection pass has one common start time. -/
theorem connectAux_const_start (gs : List (List MNote)) :
    ∀ prev, ∀ g' ∈ connectAux prev gs, ∃ t, ∀ n ∈ g', n.start = t := by
  induction gs with
  | nil => intro _ g' hg'; cases hg'
  | cons g gs ih =>
    intro prev g' hg'
    rw [connectAux] at hg'
    rcases List.mem_cons.1 hg' with rfl | hg'
    · exact ⟨maxEnd prev, shiftGroup_start _ _⟩
    · exact ih _ g' hg'

/-- Core of the idempotence argument: when the input groups are non-empty,
tight, separated by more than the (non-negative) tolerance, jointly sorted,
and all durations exceed the tolerance, then running
`connect_chord_notes_grouped` on the already-connected flat note list returns
it unchanged: the sort, the grouping and the reconnection are all fixed. -/
theorem connectNotes_connectGroups_fixed (tol : ℚ) (htol : 0 ≤ tol)
    (g0 : List MNote) (rest : List (List MNote))
    (hne : ∀ g ∈ g0 :: rest, g ≠ [])
    (htight : ∀ g ∈ g0 :: rest, groupTight tol g)
    (hsorted : List.Pairwise noteLe (g0 :: rest).flatten)
    (hdur : ∀ g ∈ g0 :: rest, ∀ n ∈ g, tol < n.stop - n.start) :
    connectNotes tol (connectGroups (g0 :: rest)).flatten =
      some (connectGroups (g0 :: rest)).flatten := by
  have hout : connectGroups (g0 :: rest) = g0 :: connectAux g0 rest := rfl
  rw [hout]
  have hne_rest : ∀ g ∈ rest, g ≠ [] :=
    fun g hg => hne g (List.mem_cons_of_mem g0 hg)
  have hdur_rest : ∀ g ∈ rest, ∀ n ∈ g, tol < n.stop - n.start :=
    fun g hg => hdur g (List.mem_cons_of_mem g0 hg)
  have hd0_rest : ∀ g ∈ rest, ∀ n ∈ g, 0 ≤ n.stop - n.start :=
    fun g hg n hn => le_of_lt (lt_of_le_of_lt htol (hdur_rest g hg n hn))
  have hg0_ne : g0 ≠ [] := hne g0 (List.mem_cons_self g0 rest)
  have hch : chainedFrom g0 (connectAux g0 rest) := chainedFrom_connectAux rest g0
  -- non-emptiness of all output groups
  have out_ne : ∀ g ∈ g0 :: connectAux g0 rest, g ≠ [] := by
    intro g hg
    rcases List.mem_cons.1 hg with rfl | hg
    · exact hg0_ne
    · exact connectAux_ne_nil rest g0 hne_rest g hg
  -- tightness of all output groups
  have out_tight : ∀ g ∈ g0 :: connectAux g0 rest, groupTight tol g := by
    intro g hg
    rcases List.mem_cons.1 hg with rfl | hg
    · exact htight g (List.mem_cons_self g rest)
    · obtain ⟨t, hconst⟩ := connectAux_const_start rest g0 g hg
      exact groupTight_of_const tol htol g t hconst
  -- gap chain on the output groups
  have out_chain : List.Chain' (startGap tol) (g0 :: connectAux g0 rest) := by
    rw [List.chain'_cons']
    refine ⟨?_, connectAux_gap_chain tol htol rest g0 hne_rest hdur_rest⟩
    intro h' hh' f1 hf1 f2 hf2
    have hf1g0 := List.mem_of_mem_head? hf1
    have hstep : f1.start + tol < maxEnd g0 := by
      have h1 : f1.stop ≤ maxEnd g0 := le_maxEnd g0 f1 hf1g0
      have h2 := hdur g0 (List.mem_cons_self g0 rest) f1 hf1g0
      linarith
    have hge := connectAux_start_ge rest g0 hne_rest hd0_rest h'
      (List.mem_of_mem_head? hh') f2 (List.mem_of_mem_head? hf2)
    have hlt : tol < f2.start - f1.start := by linarith
    exact lt_of_lt_of_le hlt (le_abs_self _)
  -- the flattened output is sorted by start time
  have hsorted' : List.Pairwise noteLe (g0 ++ rest.flatten) := by
    rw [List.flatten_cons] at hsorted
    exact hsorted
  have out_sorted :
      List.Pairwise noteLe ((g0 :: connectAux g0 rest).flatten) := by
    refine List.pairwise_flatten.2 ⟨?_, ?_⟩
    · intro g hg
      rcases List.mem_cons.1 hg with rfl | hg
      · exact (List.pairwise_append.1 hsorted').1
      · obtain ⟨t, hconst⟩ := connectAux_const_start rest g0 g hg
        exact pairwise_le_of_const_start g t hconst
    · refine List.pairwise_cons.2
        ⟨?_, connectAux_pairwise_cross rest g0 hne_rest hd0_rest⟩
      intro h' hh' a ha b hb
      have hge := connectAux_start_ge rest g0 hne_rest hd0_rest h' hh' b hb
      have h1 : a.stop ≤ maxEnd g0 := le_maxEnd g0 a ha
      have h2 := hdur g0 (List.mem_cons_self g0 rest) a ha
      show a.start ≤ b.start
      linarith
  -- the flattened output is non-empty
  have out_flat_ne : (g0 :: connectAux g0 rest).flatten ≠ [] := by
    rw [List.flatten_cons]
    intro h0
    exact hg0_ne (List.append_eq_nil.1 h0).1
  -- assemble: sort, regroup and reconnect are all fixed
  have hB : sortNotes ((g0 :: connectAux g0 rest).flatten) =
      (g0 :: connectAux g0 rest).flatten :=
    List.Sorted.insertionSort_eq out_sorted
  have hC : groupByStart tol ((g0 :: connectAux g0 rest).flatten) =
      g0 :: connectAux g0 rest :=
    groupByStart_eq_blocks tol _ out_ne out_tight out_chain
  have hD : connectGroups (g0 :: connectAux g0 rest) =
      g0 :: connectAux g0 rest := by
    rw [connectGroups, connectAux_eq_of_chained _ g0 hch]
  rw [connectNotes, if_neg out_flat_ne, hB, hC, hD]

/-- Claim C3 counterexample: three positive-duration notes on which applying
`connect_chord_notes_grouped` twice differs from applying it once.  The middle
note's duration (1/2000 s) is below the 1/1000 s tolerance, so after one pass
the last two groups start within tolerance of each other, the second pass
merges them, and the third note moves. -/
theorem C3_counterexample :
    ((connectNotes defaultTolerance [ceNoteA, ceNoteB, ceNoteC]).bind
      (connectNotes defaultTolerance)) ≠
    connectNotes defaultTolerance [ceNoteA, ceNoteB, ceNoteC] := by
  norm_num [connectNotes, defaultTolerance, sortNotes, List.insertionSort,
    List.orderedInsert, noteLe, groupByStart, buildGroups, maxEnd,
    connectGroups, connectAux, shiftGroup, ceNoteA, ceNoteB, ceNoteC,
    Option.bind, List.cons_ne_nil, MNote.mk.injEq, abs_le]

/-- Claim C3 (amended): `connect_chord_notes_grouped` is idempotent on every
non-empty note list all of whose notes last strictly longer than the
(non-negative) grouping tolerance — in the pipeline every chord note lasts a
full beat (at least 0.5 s), far above the 1 ms tolerance. -/
theorem C3_note_grouper_idempotent (tol : ℚ) (ns : List MNote)
    (hne : ns ≠ []) (htol : 0 ≤ tol)
    (hdur : ∀ n ∈ ns, tol < n.stop - n.start) :
    (connectNotes tol ns).bind (connectNotes tol) = connectNotes tol ns := by
  have hsorted_dur : ∀ n ∈ sortNotes ns, tol < n.stop - n.start := by
    intro n hn
    exact hdur n ((List.perm_insertionSort noteLe ns).mem_iff.1 hn)
  have hsorted : List.Pairwise noteLe (sortNotes ns) :=
    List.sorted_insertionSort noteLe ns
  have hsortne : sortNotes ns ≠ [] := by
    intro h0
    refine hne (List.eq_nil_of_length_eq_zero ?_)
    rw [← (List.perm_insertionSort noteLe ns).length_eq]
    rw [show List.insertionSort noteLe ns = sortNotes ns from rfl, h0]
    rfl
  have hflat := groupByStart_flatten tol (sortNotes ns)
  have hgs_ne := groupByStart_ne_nil tol (sortNotes ns)
  have hgs_tight := groupByStart_tight tol htol (sortNotes ns)
  have hgs_dur : ∀ g ∈ groupByStart tol (sortNotes ns),
      ∀ n ∈ g, tol < n.stop - n.start := by
    intro g hg n hn
    exact hsorted_dur n (hflat ▸ List.mem_flatten.2 ⟨g, hg, hn⟩)
  have hgs_nonnil : groupByStart tol (sortNotes ns) ≠ [] := by
    intro h0
    rw [← hflat, h0] at hsortne
    exact hsortne rfl
  obtain ⟨g0, rest, hgs⟩ := List.exists_cons_of_ne_nil hgs_nonnil
  have hconn : connectNotes tol ns =
      some (connectGroups (g0 :: rest)).flatten := by
    rw [connectNotes, if_neg hne, hgs]
  rw [hconn]
  show connectNotes tol ((connectGroups (g0 :: rest)).flatten) =
    some (connectGroups (g0 :: rest)).flatten
  rw [hgs] at hgs_ne hgs_tight hgs_dur
  have hsorted' : List.Pairwise noteLe ((g0 :: rest).flatten) := by
    rw [hgs] at hflat
    rw [hflat]
    exact hsorted
  exact connectNotes_connectGroups_fixed tol htol g0 rest hgs_ne hgs_tight
    hsorted' hgs_dur

/-- Witness for the amended C3 at the default tolerance on two one-second
notes. -/
theorem C3_note_grouper_idempotent_witness :
    (connectNotes defaultTolerance [ceNoteA, ceNoteC]).bind
      (connectNotes defaultTolerance) =
    connectNotes defaultTolerance [ceNoteA, ceNoteC] := by
  refine C3_note_grouper_idempotent defaultTolerance [ceNoteA, ceNoteC]
    (by simp) (by norm_num [defaultTolerance]) ?_
  intro n hn
  rcases List.mem_cons.1 hn with rfl | hn
  · norm_num [ceNoteA, defaultTolerance]
  · rw [List.mem_singleton] at hn
    subst hn
    norm_num [ceNoteC, defaultTolerance]
